import Mathlib

/-!
Shallow embedding of `src/toolkits/matrix_factorization/make_synthetic_als_data.cpp`
(the GraphLab synthetic ALS data generator) and verification of its specification.

The program parses a configuration, creates an output directory and `nfiles`
training / validation shard files, builds Gaussian latent factor tables for
users and movies from one shared seeded generator, asserts
`nusers > nvalidation`, builds a power-law CDF over `nusers - nvalidation`
ranks, and then, for each movie, emits a sampled number of training records
plus `nvalidation` validation records, each routed to shard
`user_id % nfiles`, where the user id cursor advances by
`(user_id + 2654435761) % nusers` at every emission.

Modelling choices:
* `double` values are modelled as rationals (`ℚ`); the claims under study are
  structural, not about rounding.
* The graphlab random library (`graphlab::random::generator`, `gaussian`,
  `pdf2cdf`, `multinomial_cdf`) is not part of the sources; those pieces are
  modelled from the spec, as noted on each definition.  The shared seeded
  generator is modelled as an abstract deterministic stream `rand : ℕ → ℚ`
  consumed in call order (the stream is the one determined by seed 31413),
  together with an abstract real power function `rpow` for
  `std::pow(double(i+1), -alpha)`.
* Side effects (directory creation, file opening, error logging, record
  writes) are recorded in an explicit effect trace, in program order.
-/

namespace MakeSyntheticAlsData

/-- The cursor increment constant `2654435761` from the emission loops. -/
def hashIncrement : ℕ := 2654435761

/-- The configuration options of `main` (the output folder name is irrelevant
to the claims and omitted; seed is fixed to 31413 in the code). -/
structure Config where
  nfiles : ℕ
  D : ℕ
  nusers : ℕ
  nmovies : ℕ
  nvalidation : ℕ
  noise : ℚ
  stdev : ℚ
  alpha : ℚ
deriving DecidableEq

/-- The default option values from `main`. -/
def defaultConfig : Config :=
  { nfiles := 5, D := 20, nusers := 1000, nmovies := 10000,
    nvalidation := 2, noise := 1/10, stdev := 2, alpha := 9/5 }

/-- One emitted rating record `user_id \t item_id \t rating`. -/
structure Record where
  user_id : ℕ
  item_id : ℕ
  rating : ℚ
deriving DecidableEq

/-- An observable side effect of the program, in program order. -/
inductive Effect where
  | createDir
  | openTrain (i : ℕ)
  | openValidation (i : ℕ)
  | logError
  | writeTrain (file_id : ℕ) (r : Record)
  | writeValidation (file_id : ℕ) (r : Record)
deriving DecidableEq

/-- Modelled from the spec: `gen.gaussian(0, stdev)` draws from the shared
deterministic pseudo-random source; draw number `c` of the stream is modelled
as `stdev` times the abstract unit deviate `rand c`. The latent factor table
construction fills each of `count` factors with `D` consecutive draws,
starting at stream position `start` (users first, then movies). -/
def mkFactors (rand : ℕ → ℚ) (stdev : ℚ) (start count D : ℕ) : List (List ℚ) :=
  (List.range count).map (fun n => (List.range D).map (fun d => stdev * rand (start + n * D + d)))

/-- The user factor table: `nusers` factors drawn first, stream positions
`0 .. nusers*D - 1`. -/
def userTable (rand : ℕ → ℚ) (cfg : Config) : List (List ℚ) :=
  mkFactors rand cfg.stdev 0 cfg.nusers cfg.D

/-- The movie factor table: `nmovies` factors drawn after all user factors. -/
def movieTable (rand : ℕ → ℚ) (cfg : Config) : List (List ℚ) :=
  mkFactors rand cfg.stdev (cfg.nusers * cfg.D) cfg.nmovies cfg.D

/-- Stream position of the first draw after both factor tables; the degree
draw for movie `m` is draw `cnt0 cfg + m`. -/
def cnt0 (cfg : Config) : ℕ := (cfg.nusers + cfg.nmovies) * cfg.D

/-- The unnormalized power-law weights `prob[i] = pow(double(i+1), -alpha)`
over `nusers - nvalidation` ranks; `rpow` is the abstract real power. -/
def probOf (rpow : ℚ → ℚ → ℚ) (cfg : Config) : List ℚ :=
  (List.range (cfg.nusers - cfg.nvalidation)).map
    (fun (i : ℕ) => rpow ((i : ℚ) + 1) (-cfg.alpha))

/-- Modelled from the spec: `graphlab::random::pdf2cdf` normalizes the weight
vector to sum 1 and prefix-sums it; entry `i` is the normalized sum of the
first `i+1` weights. -/
def pdf2cdf (pdf : List ℚ) : List ℚ :=
  (List.range pdf.length).map (fun i => ((pdf.take (i + 1)).sum) / pdf.sum)

/-- The cumulative distribution the generation loop samples from. -/
def cdfOf (rpow : ℚ → ℚ → ℚ) (cfg : Config) : List ℚ :=
  pdf2cdf (probOf rpow cfg)

/-- Modelled from the spec: `gen.multinomial_cdf(cdf)` locates a uniform draw
`u` in the cumulative distribution — the first index whose cumulative value is
at least the draw — clamped to the last index. -/
def multinomial_cdf : List ℚ → ℚ → ℕ
  | [], _ => 0
  | c :: rest, u =>
    if u ≤ c then 0
    else match rest with
      | [] => 0
      | r :: t => multinomial_cdf (r :: t) u + 1

/-- The `Eigen` dot product of two factor vectors. -/
def dot (a b : List ℚ) : ℚ := (List.zipWith (fun x y => x * y) a b).sum

/-- One cursor advance: `user_id = (user_id + 2654435761) % nusers`. -/
def advance (nusers c : ℕ) : ℕ := (c + hashIncrement) % nusers

/-- The record written for user `uid` and movie `movie_id`:
`user_id, movie_id + nusers, user_factors[user_id].dot(movie_factors[movie_id])`. -/
def mkRecord (uf mf : List (List ℚ)) (nusers movie_id uid : ℕ) : Record :=
  { user_id := uid, item_id := movie_id + nusers,
    rating := dot (uf.getD uid []) (mf.getD movie_id []) }

/-- The write effect for user `uid` and movie `movie_id`: the record goes to
file `uid % nfiles`, a training file in the degree loop (`isVal = false`) and
a validation file in the validation loop (`isVal = true`). -/
def writeAt (uf mf : List (List ℚ)) (nusers nfiles movie_id : ℕ) (isVal : Bool) (uid : ℕ) : Effect :=
  if isVal then Effect.writeValidation (uid % nfiles) (mkRecord uf mf nusers movie_id uid)
  else Effect.writeTrain (uid % nfiles) (mkRecord uf mf nusers movie_id uid)

/-- One inner emission loop of `main` (either the `out_degree` training loop
or the `nvalidation` validation loop): advance the cursor, write the record,
`k` times; returns the effects and the final cursor. -/
def emitLoop (uf mf : List (List ℚ)) (nusers nfiles movie_id : ℕ) (isVal : Bool) :
    ℕ → ℕ → List Effect × ℕ
  | 0, cursor => ([], cursor)
  | k + 1, cursor =>
    let uid := advance nusers cursor
    let rest := emitLoop uf mf nusers nfiles movie_id isVal k uid
    (writeAt uf mf nusers nfiles movie_id isVal uid :: rest.1, rest.2)

/-- The loop over movies of `main`, from movie `movie_id` for `rem` more
movies, with the running shared cursor: sample `out_degree` (one uniform draw
per movie, at stream position `c0 + movie_id`), emit that many training
records, then `nvalidation` validation records. -/
def genLoop (rand : ℕ → ℚ) (nusers nfiles nvalidation c0 : ℕ)
    (uf mf : List (List ℚ)) (cdf : List ℚ) : ℕ → ℕ → ℕ → List Effect
  | 0, _, _ => []
  | rem + 1, movie_id, cursor =>
    let out_degree := multinomial_cdf cdf (rand (c0 + movie_id)) + 1
    let t := emitLoop uf mf nusers nfiles movie_id false out_degree cursor
    let v := emitLoop uf mf nusers nfiles movie_id true nvalidation t.2
    t.1 ++ (v.1 ++ genLoop rand nusers nfiles nvalidation c0 uf mf cdf rem (movie_id + 1) v.2)

/-- The file-opening prologue for shards `0 .. n-1`, in program order: open
the training file then the validation file of each index, logging (but not
aborting) when the environment oracle reports a failed open. -/
def openEffects (trainOk validOk : ℕ → Bool) : ℕ → List Effect
  | 0 => []
  | i + 1 =>
    openEffects trainOk validOk i ++
      ((Effect.openTrain i :: (if trainOk i then [] else [Effect.logError])) ++
       (Effect.openValidation i :: (if validOk i then [] else [Effect.logError])))

/-- Everything `main` does before the factor tables: create the directory
(logging on failure) and open all `nfiles` shard file pairs. -/
def preEffects (cfg : Config) (dirOk : Bool) (trainOk validOk : ℕ → Bool) : List Effect :=
  (Effect.createDir :: (if dirOk then [] else [Effect.logError])) ++
    openEffects trainOk validOk cfg.nfiles

/-- The whole of `main` after command-line parsing, as an effect trace plus a
completion flag: `false` means `ASSERT_GT(nusers, nvalidation)` failed and the
run aborted there. `dirOk`, `trainOk`, `validOk` are the environment oracle
for directory creation and file opens. -/
def runMain (rand : ℕ → ℚ) (rpow : ℚ → ℚ → ℚ) (cfg : Config)
    (dirOk : Bool) (trainOk validOk : ℕ → Bool) : List Effect × Bool :=
  let pre := preEffects cfg dirOk trainOk validOk
  if cfg.nusers ≤ cfg.nvalidation then (pre, false)
  else
    (pre ++ genLoop rand cfg.nusers cfg.nfiles cfg.nvalidation (cnt0 cfg)
        (userTable rand cfg) (movieTable rand cfg) (cdfOf rpow cfg) cfg.nmovies 0 0, true)

/-- Extract a training write. -/
def trainOf : Effect → Option (ℕ × Record)
  | Effect.writeTrain f r => some (f, r)
  | _ => none

/-- Extract a validation write. -/
def valOf : Effect → Option (ℕ × Record)
  | Effect.writeValidation f r => some (f, r)
  | _ => none

/-- Extract the user id of any write. -/
def uidOf : Effect → Option ℕ
  | Effect.writeTrain _ r => some r.user_id
  | Effect.writeValidation _ r => some r.user_id
  | _ => none

/-- Is this effect a record write? -/
def isWrite : Effect → Bool
  | Effect.writeTrain _ _ => true
  | Effect.writeValidation _ _ => true
  | _ => false

/-- All training writes of a trace, in order, as file id and record. -/
def trainWrites (es : List Effect) : List (ℕ × Record) := es.filterMap trainOf

/-- All validation writes of a trace, in order. -/
def validationWrites (es : List Effect) : List (ℕ × Record) := es.filterMap valOf

/-- The user ids of all writes of a trace (training and validation together),
in emission order. -/
def writtenUids (es : List Effect) : List ℕ := es.filterMap uidOf

/-- The record-write subtrace (file contents, in order). -/
def writes (es : List Effect) : List Effect :=
  es.filterMap (fun e => if isWrite e then some e else none)

/-- The content of training shard `j`: the records written to training file `j`. -/
def trainShard (j : ℕ) (es : List Effect) : List Record :=
  (trainWrites es).filterMap (fun p => if p.1 = j then some p.2 else none)

/-- The content of validation shard `j`. -/
def validationShard (j : ℕ) (es : List Effect) : List Record :=
  (validationWrites es).filterMap (fun p => if p.1 = j then some p.2 else none)

/-- The user id after `p` cursor advances from the initial cursor 0:
`(p * 2654435761) % nusers`. -/
def posUid (nusers p : ℕ) : ℕ := (p * hashIncrement) % nusers

/-- The out-degree sampled for movie `m`: the located CDF index plus one. -/
def sampledDegree (rand : ℕ → ℚ) (rpow : ℚ → ℚ → ℚ) (cfg : Config) (m : ℕ) : ℕ :=
  multinomial_cdf (cdfOf rpow cfg) (rand (cnt0 cfg + m)) + 1

/-- Number of records emitted for movie `m`. -/
def blockLen (rand : ℕ → ℚ) (rpow : ℚ → ℚ → ℚ) (cfg : Config) (m : ℕ) : ℕ :=
  sampledDegree rand rpow cfg m + cfg.nvalidation

/-- Number of records emitted for the movies before movie `m`. -/
def totalBefore (rand : ℕ → ℚ) (rpow : ℚ → ℚ → ℚ) (cfg : Config) : ℕ → ℕ
  | 0 => 0
  | m + 1 => totalBefore rand rpow cfg m + blockLen rand rpow cfg m

/-- Closed-form description of the writes of the block of movie `m`, with
`base` records emitted before the block: first `sampledDegree m` training
writes, then `nvalidation` validation writes, the `i`-th write of the block
going to the user at overall emission position `base + i + 1`. -/
def specBlock (rand : ℕ → ℚ) (rpow : ℚ → ℚ → ℚ) (cfg : Config) (m base : ℕ) : List Effect :=
  ((List.range (sampledDegree rand rpow cfg m)).map (fun i =>
      writeAt (userTable rand cfg) (movieTable rand cfg) cfg.nusers cfg.nfiles m false
        (posUid cfg.nusers (base + i + 1)))) ++
  ((List.range cfg.nvalidation).map (fun i =>
      writeAt (userTable rand cfg) (movieTable rand cfg) cfg.nusers cfg.nfiles m true
        (posUid cfg.nusers (base + sampledDegree rand rpow cfg m + i + 1))))

/-- Closed-form description of the generation loop from movie `m` for `rem`
movies: the concatenation of the per-movie blocks. -/
def specFrom (rand : ℕ → ℚ) (rpow : ℚ → ℚ → ℚ) (cfg : Config) : ℕ → ℕ → List Effect
  | 0, _ => []
  | rem + 1, m =>
    specBlock rand rpow cfg m (totalBefore rand rpow cfg m) ++
      specFrom rand rpow cfg rem (m + 1)

/-- Closed-form description of the whole generation loop. -/
def specTrace (rand : ℕ → ℚ) (rpow : ℚ → ℚ → ℚ) (cfg : Config) : List Effect :=
  specFrom rand rpow cfg cfg.nmovies 0

/-- Number of records emitted by the generation loop from movie `m` for `rem`
movies. -/
def totalFrom (rand : ℕ → ℚ) (rpow : ℚ → ℚ → ℚ) (cfg : Config) : ℕ → ℕ → ℕ
  | 0, _ => 0
  | rem + 1, m => blockLen rand rpow cfg m + totalFrom rand rpow cfg rem (m + 1)

/-- The user ids at `len` consecutive overall emission positions after
position `start`. -/
def uidSeq (nusers start len : ℕ) : List ℕ :=
  (List.range len).map (fun i => posUid nusers (start + i + 1))

/-- A concrete deterministic draw stream used to exercise the model on
concrete runs (all unit deviates zero). -/
def wRand : ℕ → ℚ := fun _ => 0

/-- A concrete power function used to exercise the model on concrete runs. -/
def wRpow : ℚ → ℚ → ℚ := fun _ _ => 0

/-- An environment oracle where every directory creation and file open
succeeds. -/
def wOk : ℕ → Bool := fun _ => true

/-- A small valid configuration (10 users, 1 movie, 1 shard, 1 validation
rating per movie, dimension 2). -/
def wCfg : Config :=
  { nfiles := 1, D := 2, nusers := 10, nmovies := 1, nvalidation := 1,
    noise := 1/10, stdev := 2, alpha := 9/5 }

/-- An invalid configuration: `nusers = 1 ≤ 2 = nvalidation`. -/
def xCfg : Config :=
  { nfiles := 1, D := 2, nusers := 1, nmovies := 1, nvalidation := 2,
    noise := 1/10, stdev := 2, alpha := 9/5 }

/-- The located CDF index is always within the distribution. -/
lemma multinomial_cdf_lt_length (cdf : List ℚ) (u : ℚ) (h : cdf ≠ []) :
    multinomial_cdf cdf u < cdf.length := by
  induction cdf with
  | nil => simp at h
  | cons c rest ih =>
    cases rest with
    | nil =>
      by_cases hu : u ≤ c <;> simp [multinomial_cdf, hu]
    | cons r t =>
      by_cases hu : u ≤ c
      · simp [multinomial_cdf, hu]
      · have := ih (by simp)
        simp only [multinomial_cdf, hu, if_false]
        simpa using Nat.succ_lt_succ this

/-- The CDF has one entry per rank of the weight vector. -/
lemma pdf2cdf_length (l : List ℚ) : (pdf2cdf l).length = l.length := by
  simp [pdf2cdf]

/-- Advancing the cursor from orbit position `p` reaches orbit position `p+1`. -/
lemma advance_posUid (n p : ℕ) : advance n (posUid n p) = posUid n (p + 1) := by
  simp [advance, posUid, Nat.add_mul, Nat.one_mul, Nat.mod_add_mod]

/-- Iterated advances from orbit position `p` reach orbit position `p + k`. -/
lemma iterate_advance_posUid (n k p : ℕ) :
    (advance n)^[k] (posUid n p) = posUid n (p + k) := by
  induction k generalizing p with
  | zero => simp
  | succ k ih =>
    rw [Function.iterate_succ_apply, advance_posUid, ih]
    congr 1
    omega

/-- The final cursor of an emission loop is the `k`-fold advance of its start. -/
lemma emitLoop_snd (uf mf : List (List ℚ)) (nusers nfiles movie_id : ℕ) (isVal : Bool)
    (k : ℕ) : ∀ cursor, (emitLoop uf mf nusers nfiles movie_id isVal k cursor).2
      = (advance nusers)^[k] cursor := by
  induction k with
  | zero => intro cursor; simp [emitLoop]
  | succ k ih =>
    intro cursor
    rw [emitLoop, Function.iterate_succ_apply]
    exact ih (advance nusers cursor)

/-- The effects of an emission loop: one write per step, at the successive
advances of the cursor. -/
lemma emitLoop_fst (uf mf : List (List ℚ)) (nusers nfiles movie_id : ℕ) (isVal : Bool)
    (k : ℕ) : ∀ cursor, (emitLoop uf mf nusers nfiles movie_id isVal k cursor).1
      = (List.range k).map (fun i =>
          writeAt uf mf nusers nfiles movie_id isVal ((advance nusers)^[i + 1] cursor)) := by
  induction k with
  | zero => intro cursor; simp [emitLoop]
  | succ k ih =>
    intro cursor
    rw [emitLoop, List.range_succ_eq_map, List.map_cons, List.map_map]
    rw [ih (advance nusers cursor)]
    refine congrArg₂ List.cons rfl ?_
    refine List.map_congr_left (fun i _ => ?_)
    rw [Function.comp_apply]
    exact congrArg (writeAt uf mf nusers nfiles movie_id isVal)
      (Function.iterate_succ_apply (advance nusers) (i + 1) cursor).symm

/-- The generation loop, started at the overall emission position of movie
`m`, produces exactly the closed-form per-movie block description. -/
lemma genLoop_eq_specFrom (rand : ℕ → ℚ) (rpow : ℚ → ℚ → ℚ) (cfg : Config) (rem : ℕ) :
    ∀ m, genLoop rand cfg.nusers cfg.nfiles cfg.nvalidation (cnt0 cfg)
      (userTable rand cfg) (movieTable rand cfg) (cdfOf rpow cfg) rem m
      (posUid cfg.nusers (totalBefore rand rpow cfg m))
    = specFrom rand rpow cfg rem m := by
  induction rem with
  | zero => intro m; rfl
  | succ rem ih =>
    intro m
    have hT : totalBefore rand rpow cfg (m + 1)
        = totalBefore rand rpow cfg m
          + (multinomial_cdf (cdfOf rpow cfg) (rand (cnt0 cfg + m)) + 1 + cfg.nvalidation) := rfl
    simp only [genLoop, specFrom, specBlock, sampledDegree]
    simp only [emitLoop_fst, emitLoop_snd, iterate_advance_posUid]
    rw [Nat.add_assoc (totalBefore rand rpow cfg m)
      (multinomial_cdf (cdfOf rpow cfg) (rand (cnt0 cfg + m)) + 1) cfg.nvalidation]
    rw [← hT, ih (m + 1), List.append_assoc]
    refine congrArg₂ (· ++ ·) ?_ (congrArg₂ (· ++ ·) ?_ rfl)
    · refine List.map_congr_left (fun i _ => ?_)
      exact congrArg _ (congrArg (posUid cfg.nusers) (by omega))
    · refine List.map_congr_left (fun i _ => ?_)
      exact congrArg _ (congrArg (posUid cfg.nusers) (by omega))

/-- The run with a failing configuration stops at the assertion, its trace
being exactly the directory/file prologue. -/
lemma runMain_trace_abort (rand : ℕ → ℚ) (rpow : ℚ → ℚ → ℚ) (cfg : Config)
    (d : Bool) (t v : ℕ → Bool) (h : cfg.nusers ≤ cfg.nvalidation) :
    runMain rand rpow cfg d t v = (preEffects cfg d t v, false) := by
  simp only [runMain, if_pos h]

/-- The trace of a successful run: the prologue followed by the closed-form
generation trace. -/
lemma runMain_trace (rand : ℕ → ℚ) (rpow : ℚ → ℚ → ℚ) (cfg : Config)
    (d : Bool) (t v : ℕ → Bool) (h : cfg.nvalidation < cfg.nusers) :
    (runMain rand rpow cfg d t v).1
      = preEffects cfg d t v ++ specTrace rand rpow cfg := by
  have h0 : posUid cfg.nusers (totalBefore rand rpow cfg 0) = 0 := by
    simp [posUid, totalBefore]
  have hg := genLoop_eq_specFrom rand rpow cfg cfg.nmovies 0
  rw [h0] at hg
  simp only [runMain, if_neg (by omega : ¬ cfg.nusers ≤ cfg.nvalidation)]
  exact congrArg (preEffects cfg d t v ++ ·) hg

/-- The completion flag of the run depends only on the configuration check. -/
lemma runMain_snd (rand : ℕ → ℚ) (rpow : ℚ → ℚ → ℚ) (cfg : Config)
    (d : Bool) (t v : ℕ → Bool) :
    (runMain rand rpow cfg d t v).2 = !decide (cfg.nusers ≤ cfg.nvalidation) := by
  by_cases h : cfg.nusers ≤ cfg.nvalidation <;> simp only [runMain, h] <;> simp [h]

/-- A filterMap vanishing on every non-write effect sees nothing in the
file-opening prologue. -/
lemma filterMap_openEffects {α : Type} (f : Effect → Option α)
    (hf1 : ∀ i, f (Effect.openTrain i) = none)
    (hf2 : ∀ i, f (Effect.openValidation i) = none) (hf3 : f Effect.logError = none)
    (t v : ℕ → Bool) (n : ℕ) : (openEffects t v n).filterMap f = [] := by
  induction n with
  | zero => rfl
  | succ n ih =>
    rw [openEffects, List.filterMap_append, ih]
    by_cases ht : t n <;> by_cases hv : v n <;> simp [ht, hv, hf1, hf2, hf3]

/-- A filterMap vanishing on every non-write effect sees nothing in the whole
prologue. -/
lemma filterMap_preEffects {α : Type} (f : Effect → Option α)
    (hf0 : f Effect.createDir = none) (hf1 : ∀ i, f (Effect.openTrain i) = none)
    (hf2 : ∀ i, f (Effect.openValidation i) = none) (hf3 : f Effect.logError = none)
    (cfg : Config) (d : Bool) (t v : ℕ → Bool) :
    (preEffects cfg d t v).filterMap f = [] := by
  rw [preEffects, List.filterMap_append, filterMap_openEffects f hf1 hf2 hf3]
  cases d <;> simp [hf0, hf3]

/-- Training writes of the prologue: none. -/
lemma trainWrites_preEffects (cfg : Config) (d : Bool) (t v : ℕ → Bool) :
    trainWrites (preEffects cfg d t v) = [] :=
  filterMap_preEffects trainOf rfl (fun _ => rfl) (fun _ => rfl) rfl cfg d t v

/-- Validation writes of the prologue: none. -/
lemma validationWrites_preEffects (cfg : Config) (d : Bool) (t v : ℕ → Bool) :
    validationWrites (preEffects cfg d t v) = [] :=
  filterMap_preEffects valOf rfl (fun _ => rfl) (fun _ => rfl) rfl cfg d t v

/-- Written user ids of the prologue: none. -/
lemma writtenUids_preEffects (cfg : Config) (d : Bool) (t v : ℕ → Bool) :
    writtenUids (preEffects cfg d t v) = [] :=
  filterMap_preEffects uidOf rfl (fun _ => rfl) (fun _ => rfl) rfl cfg d t v

/-- Record writes of the prologue: none. -/
lemma writes_preEffects (cfg : Config) (d : Bool) (t v : ℕ → Bool) :
    writes (preEffects cfg d t v) = [] :=
  filterMap_preEffects _ rfl (fun _ => rfl) (fun _ => rfl) rfl cfg d t v

/-- A training-loop write extracts as a training pair. -/
lemma trainOf_writeAt (uf mf : List (List ℚ)) (nusers nfiles m uid : ℕ) :
    trainOf (writeAt uf mf nusers nfiles m false uid)
      = some (uid % nfiles, mkRecord uf mf nusers m uid) := rfl

/-- A validation-loop write extracts as no training pair. -/
lemma trainOf_writeAt_val (uf mf : List (List ℚ)) (nusers nfiles m uid : ℕ) :
    trainOf (writeAt uf mf nusers nfiles m true uid) = none := rfl

/-- A validation-loop write extracts as a validation pair. -/
lemma valOf_writeAt (uf mf : List (List ℚ)) (nusers nfiles m uid : ℕ) :
    valOf (writeAt uf mf nusers nfiles m true uid)
      = some (uid % nfiles, mkRecord uf mf nusers m uid) := rfl

/-- A training-loop write extracts as no validation pair. -/
lemma valOf_writeAt_train (uf mf : List (List ℚ)) (nusers nfiles m uid : ℕ) :
    valOf (writeAt uf mf nusers nfiles m false uid) = none := rfl

/-- Any emitted write carries its user id. -/
lemma uidOf_writeAt (uf mf : List (List ℚ)) (nusers nfiles m : ℕ) (isVal : Bool) (uid : ℕ) :
    uidOf (writeAt uf mf nusers nfiles m isVal uid) = some uid := by
  cases isVal <;> rfl

/-- A filterMap that always succeeds is a map. -/
lemma filterMap_some_eq_map {α β : Type} (g : α → β) (l : List α) :
    l.filterMap (fun a => some (g a)) = l.map g := by
  induction l with
  | nil => rfl
  | cons a l ih => simp [List.filterMap_cons, ih]

/-- Every effect of the generation trace comes from the block of some movie
before `nmovies`. -/
lemma mem_specFrom (rand : ℕ → ℚ) (rpow : ℚ → ℚ → ℚ) (cfg : Config) (e : Effect) (rem : ℕ) :
    ∀ m, e ∈ specFrom rand rpow cfg rem m →
      ∃ j, m ≤ j ∧ j < m + rem ∧ e ∈ specBlock rand rpow cfg j (totalBefore rand rpow cfg j) := by
  induction rem with
  | zero => intro m h; simp [specFrom] at h
  | succ rem ih =>
    intro m h
    rw [specFrom] at h
    rcases List.mem_append.1 h with h | h
    · exact ⟨m, Nat.le_refl m, by omega, h⟩
    · obtain ⟨j, h1, h2, h3⟩ := ih (m + 1) h
      exact ⟨j, by omega, by omega, h3⟩

/-- Every effect of a movie block is a write at some orbit position. -/
lemma mem_specBlock (rand : ℕ → ℚ) (rpow : ℚ → ℚ → ℚ) (cfg : Config) (m base : ℕ)
    (e : Effect) (he : e ∈ specBlock rand rpow cfg m base) :
    ∃ p isVal,
      e = writeAt (userTable rand cfg) (movieTable rand cfg) cfg.nusers cfg.nfiles m isVal
        (posUid cfg.nusers (p + 1)) := by
  rw [specBlock] at he
  rcases List.mem_append.1 he with h | h <;> obtain ⟨i, hi, rfl⟩ := List.mem_map.1 h
  · exact ⟨base + i, false, rfl⟩
  · exact ⟨base + sampledDegree rand rpow cfg m + i, true, rfl⟩

/-- Characterization of any training write of a run: it was emitted in the
training loop of some movie `m < nmovies`, at some overall emission position
`p + 1`, with the file id and record the code computes there; moreover the
run had passed the configuration assertion. -/
lemma trainWrites_runMain_mem (rand : ℕ → ℚ) (rpow : ℚ → ℚ → ℚ) (cfg : Config)
    (d : Bool) (t v : ℕ → Bool) (f : ℕ) (r : Record)
    (hm : (f, r) ∈ trainWrites (runMain rand rpow cfg d t v).1) :
    ∃ m p, m < cfg.nmovies ∧ cfg.nvalidation < cfg.nusers ∧
      f = posUid cfg.nusers (p + 1) % cfg.nfiles ∧
      r = mkRecord (userTable rand cfg) (movieTable rand cfg) cfg.nusers m
        (posUid cfg.nusers (p + 1)) := by
  by_cases h : cfg.nusers ≤ cfg.nvalidation
  · rw [runMain_trace_abort rand rpow cfg d t v h] at hm
    rw [show (preEffects cfg d t v, false).1 = preEffects cfg d t v from rfl] at hm
    rw [trainWrites_preEffects] at hm
    simp at hm
  · rw [runMain_trace rand rpow cfg d t v (by omega)] at hm
    rw [trainWrites, List.filterMap_append] at hm
    rw [show (preEffects cfg d t v).filterMap trainOf = trainWrites (preEffects cfg d t v)
        from rfl, trainWrites_preEffects, List.nil_append] at hm
    obtain ⟨e, hme, hsome⟩ := List.mem_filterMap.1 hm
    obtain ⟨j, hj1, hj2, hjb⟩ := mem_specFrom rand rpow cfg e cfg.nmovies 0 hme
    obtain ⟨p, isVal, rfl⟩ := mem_specBlock rand rpow cfg j _ e hjb
    cases isVal
    · rw [trainOf_writeAt] at hsome
      obtain ⟨hf, hr⟩ := Prod.mk.injEq .. ▸ Option.some.inj hsome
      exact ⟨j, p, by omega, by omega, hf.symm, hr.symm⟩
    · rw [trainOf_writeAt_val] at hsome
      exact absurd hsome (by simp)

/-- Characterization of any validation write of a run, dually. -/
lemma validationWrites_runMain_mem (rand : ℕ → ℚ) (rpow : ℚ → ℚ → ℚ) (cfg : Config)
    (d : Bool) (t v : ℕ → Bool) (f : ℕ) (r : Record)
    (hm : (f, r) ∈ validationWrites (runMain rand rpow cfg d t v).1) :
    ∃ m p, m < cfg.nmovies ∧ cfg.nvalidation < cfg.nusers ∧
      f = posUid cfg.nusers (p + 1) % cfg.nfiles ∧
      r = mkRecord (userTable rand cfg) (movieTable rand cfg) cfg.nusers m
        (posUid cfg.nusers (p + 1)) := by
  by_cases h : cfg.nusers ≤ cfg.nvalidation
  · rw [runMain_trace_abort rand rpow cfg d t v h] at hm
    rw [show (preEffects cfg d t v, false).1 = preEffects cfg d t v from rfl] at hm
    rw [validationWrites_preEffects] at hm
    simp at hm
  · rw [runMain_trace rand rpow cfg d t v (by omega)] at hm
    rw [validationWrites, List.filterMap_append] at hm
    rw [show (preEffects cfg d t v).filterMap valOf = validationWrites (preEffects cfg d t v)
        from rfl, validationWrites_preEffects, List.nil_append] at hm
    obtain ⟨e, hme, hsome⟩ := List.mem_filterMap.1 hm
    obtain ⟨j, hj1, hj2, hjb⟩ := mem_specFrom rand rpow cfg e cfg.nmovies 0 hme
    obtain ⟨p, isVal, rfl⟩ := mem_specBlock rand rpow cfg j _ e hjb
    cases isVal
    · rw [valOf_writeAt_train] at hsome
      exact absurd hsome (by simp)
    · rw [valOf_writeAt] at hsome
      obtain ⟨hf, hr⟩ := Prod.mk.injEq .. ▸ Option.some.inj hsome
      exact ⟨j, p, by omega, by omega, hf.symm, hr.symm⟩

/-- Consecutive orbit segments concatenate. -/
lemma uidSeq_append (n s a b : ℕ) :
    uidSeq n s a ++ uidSeq n (s + a) b = uidSeq n s (a + b) := by
  rw [uidSeq, uidSeq, uidSeq, List.range_add, List.map_append, List.map_map]
  refine congrArg₂ (· ++ ·) rfl ?_
  refine List.map_congr_left (fun i _ => ?_)
  simp only [Function.comp_apply]
  exact congrArg (posUid n) (by omega)

/-- The user ids written in the block of movie `m` are the next
`blockLen m` orbit positions after `base`. -/
lemma writtenUids_specBlock (rand : ℕ → ℚ) (rpow : ℚ → ℚ → ℚ) (cfg : Config) (m base : ℕ) :
    writtenUids (specBlock rand rpow cfg m base)
      = uidSeq cfg.nusers base (blockLen rand rpow cfg m) := by
  rw [specBlock, writtenUids, List.filterMap_append, List.filterMap_map, List.filterMap_map]
  have h1 : (uidOf ∘ fun i =>
      writeAt (userTable rand cfg) (movieTable rand cfg) cfg.nusers cfg.nfiles m false
        (posUid cfg.nusers (base + i + 1)))
      = fun i => some (posUid cfg.nusers (base + i + 1)) := by
    funext i
    exact uidOf_writeAt (userTable rand cfg) (movieTable rand cfg) cfg.nusers cfg.nfiles m
      false (posUid cfg.nusers (base + i + 1))
  have h2 : (uidOf ∘ fun i =>
      writeAt (userTable rand cfg) (movieTable rand cfg) cfg.nusers cfg.nfiles m true
        (posUid cfg.nusers (base + sampledDegree rand rpow cfg m + i + 1)))
      = fun i => some (posUid cfg.nusers (base + sampledDegree rand rpow cfg m + i + 1)) := by
    funext i
    exact uidOf_writeAt (userTable rand cfg) (movieTable rand cfg) cfg.nusers cfg.nfiles m
      true (posUid cfg.nusers (base + sampledDegree rand rpow cfg m + i + 1))
  rw [h1, h2, filterMap_some_eq_map, filterMap_some_eq_map]
  rw [blockLen, ← uidSeq_append]
  rfl

/-- The user ids written by the generation loop from movie `m` are the
`totalFrom rem m` orbit positions after position `totalBefore m`. -/
lemma writtenUids_specFrom (rand : ℕ → ℚ) (rpow : ℚ → ℚ → ℚ) (cfg : Config) (rem : ℕ) :
    ∀ m, writtenUids (specFrom rand rpow cfg rem m)
      = uidSeq cfg.nusers (totalBefore rand rpow cfg m) (totalFrom rand rpow cfg rem m) := by
  induction rem with
  | zero => intro m; rfl
  | succ rem ih =>
    intro m
    rw [specFrom, writtenUids, List.filterMap_append]
    rw [show (specBlock rand rpow cfg m (totalBefore rand rpow cfg m)).filterMap uidOf
        = writtenUids (specBlock rand rpow cfg m (totalBefore rand rpow cfg m)) from rfl]
    rw [show (specFrom rand rpow cfg rem (m + 1)).filterMap uidOf
        = writtenUids (specFrom rand rpow cfg rem (m + 1)) from rfl]
    rw [writtenUids_specBlock, ih (m + 1)]
    rw [show totalBefore rand rpow cfg (m + 1)
        = totalBefore rand rpow cfg m + blockLen rand rpow cfg m from rfl]
    rw [uidSeq_append]
    rfl

/-- The written user ids of any run: empty for an aborted run, the full orbit
from position 1 otherwise. -/
lemma writtenUids_runMain (rand : ℕ → ℚ) (rpow : ℚ → ℚ → ℚ) (cfg : Config)
    (d : Bool) (t v : ℕ → Bool) :
    writtenUids (runMain rand rpow cfg d t v).1
      = if cfg.nusers ≤ cfg.nvalidation then []
        else uidSeq cfg.nusers 0 (totalFrom rand rpow cfg cfg.nmovies 0) := by
  by_cases h : cfg.nusers ≤ cfg.nvalidation
  · rw [runMain_trace_abort rand rpow cfg d t v h, if_pos h]
    exact writtenUids_preEffects cfg d t v
  · rw [runMain_trace rand rpow cfg d t v (by omega), if_neg h]
    rw [writtenUids, List.filterMap_append]
    rw [show (preEffects cfg d t v).filterMap uidOf = writtenUids (preEffects cfg d t v)
        from rfl, writtenUids_preEffects, List.nil_append]
    rw [show (specTrace rand rpow cfg).filterMap uidOf = writtenUids (specTrace rand rpow cfg)
        from rfl]
    rw [specTrace, writtenUids_specFrom rand rpow cfg cfg.nmovies 0]
    rfl

/-- A filterMap that succeeds everywhere preserves length. -/
lemma length_filterMap_of_some {α β : Type} (f : α → Option β) (l : List α)
    (h : ∀ a ∈ l, ∃ b, f a = some b) : (l.filterMap f).length = l.length := by
  induction l with
  | nil => rfl
  | cons a l ih =>
    obtain ⟨b, hb⟩ := h a (List.mem_cons_self a l)
    rw [List.filterMap_cons, hb]
    simp only [List.length_cons]
    rw [ih (fun x hx => h x (List.mem_cons_of_mem a hx))]

/-- A filterMap that fails everywhere yields nothing. -/
lemma filterMap_of_none {α β : Type} (f : α → Option β) (l : List α)
    (h : ∀ a ∈ l, f a = none) : l.filterMap f = [] := by
  induction l with
  | nil => rfl
  | cons a l ih =>
    rw [List.filterMap_cons, h a (List.mem_cons_self a l)]
    exact ih (fun x hx => h x (List.mem_cons_of_mem a hx))

/-- The block of movie `m` holds exactly `sampledDegree m` training writes. -/
lemma trainWrites_specBlock_length (rand : ℕ → ℚ) (rpow : ℚ → ℚ → ℚ) (cfg : Config)
    (m base : ℕ) :
    (trainWrites (specBlock rand rpow cfg m base)).length = sampledDegree rand rpow cfg m := by
  rw [specBlock, trainWrites, List.filterMap_append, List.filterMap_map, List.filterMap_map,
    List.length_append]
  rw [filterMap_of_none (trainOf ∘ fun i =>
      writeAt (userTable rand cfg) (movieTable rand cfg) cfg.nusers cfg.nfiles m true
        (posUid cfg.nusers (base + sampledDegree rand rpow cfg m + i + 1)))
    (List.range cfg.nvalidation)
    (fun a _ => trainOf_writeAt_val (userTable rand cfg) (movieTable rand cfg) cfg.nusers
      cfg.nfiles m (posUid cfg.nusers (base + sampledDegree rand rpow cfg m + a + 1)))]
  rw [length_filterMap_of_some (trainOf ∘ fun i =>
      writeAt (userTable rand cfg) (movieTable rand cfg) cfg.nusers cfg.nfiles m false
        (posUid cfg.nusers (base + i + 1)))
    (List.range (sampledDegree rand rpow cfg m))
    (fun a _ => ⟨_, trainOf_writeAt (userTable rand cfg) (movieTable rand cfg) cfg.nusers
      cfg.nfiles m (posUid cfg.nusers (base + a + 1))⟩)]
  simp

/-- The block of movie `m` holds exactly `nvalidation` validation writes. -/
lemma validationWrites_specBlock_length (rand : ℕ → ℚ) (rpow : ℚ → ℚ → ℚ) (cfg : Config)
    (m base : ℕ) :
    (validationWrites (specBlock rand rpow cfg m base)).length = cfg.nvalidation := by
  rw [specBlock, validationWrites, List.filterMap_append, List.filterMap_map,
    List.filterMap_map, List.length_append]
  rw [filterMap_of_none (valOf ∘ fun i =>
      writeAt (userTable rand cfg) (movieTable rand cfg) cfg.nusers cfg.nfiles m false
        (posUid cfg.nusers (base + i + 1)))
    (List.range (sampledDegree rand rpow cfg m))
    (fun a _ => valOf_writeAt_train (userTable rand cfg) (movieTable rand cfg) cfg.nusers
      cfg.nfiles m (posUid cfg.nusers (base + a + 1)))]
  rw [length_filterMap_of_some (valOf ∘ fun i =>
      writeAt (userTable rand cfg) (movieTable rand cfg) cfg.nusers cfg.nfiles m true
        (posUid cfg.nusers (base + sampledDegree rand rpow cfg m + i + 1)))
    (List.range cfg.nvalidation)
    (fun a _ => ⟨_, valOf_writeAt (userTable rand cfg) (movieTable rand cfg) cfg.nusers
      cfg.nfiles m (posUid cfg.nusers (base + sampledDegree rand rpow cfg m + a + 1))⟩)]
  simp

/-- Training-write count of the loop from movie `m`: the sum of the sampled
degrees of the remaining movies. -/
lemma trainWrites_specFrom_length (rand : ℕ → ℚ) (rpow : ℚ → ℚ → ℚ) (cfg : Config)
    (rem : ℕ) :
    ∀ m, (trainWrites (specFrom rand rpow cfg rem m)).length
      = ((List.range rem).map (fun j => sampledDegree rand rpow cfg (m + j))).sum := by
  induction rem with
  | zero => intro m; rfl
  | succ rem ih =>
    intro m
    rw [specFrom, trainWrites, List.filterMap_append, List.length_append]
    rw [show (specBlock rand rpow cfg m (totalBefore rand rpow cfg m)).filterMap trainOf
        = trainWrites (specBlock rand rpow cfg m (totalBefore rand rpow cfg m)) from rfl]
    rw [show (specFrom rand rpow cfg rem (m + 1)).filterMap trainOf
        = trainWrites (specFrom rand rpow cfg rem (m + 1)) from rfl]
    rw [trainWrites_specBlock_length, ih (m + 1)]
    rw [List.range_succ_eq_map, List.map_cons, List.sum_cons, List.map_map]
    refine congrArg₂ (· + ·) (congrArg (sampledDegree rand rpow cfg) (by omega)) ?_
    refine congrArg List.sum (List.map_congr_left (fun j _ => ?_))
    simp only [Function.comp_apply]
    exact congrArg (sampledDegree rand rpow cfg) (by omega)

/-- Validation-write count of the loop from movie `m`: one block of
`nvalidation` per remaining movie. -/
lemma validationWrites_specFrom_length (rand : ℕ → ℚ) (rpow : ℚ → ℚ → ℚ) (cfg : Config)
    (rem : ℕ) :
    ∀ m, (validationWrites (specFrom rand rpow cfg rem m)).length
      = rem * cfg.nvalidation := by
  induction rem with
  | zero => intro m; rw [Nat.zero_mul]; rfl
  | succ rem ih =>
    intro m
    rw [specFrom, validationWrites, List.filterMap_append, List.length_append]
    rw [show (specBlock rand rpow cfg m (totalBefore rand rpow cfg m)).filterMap valOf
        = validationWrites (specBlock rand rpow cfg m (totalBefore rand rpow cfg m)) from rfl]
    rw [show (specFrom rand rpow cfg rem (m + 1)).filterMap valOf
        = validationWrites (specFrom rand rpow cfg rem (m + 1)) from rfl]
    rw [validationWrites_specBlock_length, ih (m + 1), Nat.succ_mul]
    omega

/-- The training writes of any run do not depend on the environment oracle. -/
lemma trainWrites_runMain (rand : ℕ → ℚ) (rpow : ℚ → ℚ → ℚ) (cfg : Config)
    (d : Bool) (t v : ℕ → Bool) :
    trainWrites (runMain rand rpow cfg d t v).1
      = if cfg.nusers ≤ cfg.nvalidation then []
        else trainWrites (specTrace rand rpow cfg) := by
  by_cases h : cfg.nusers ≤ cfg.nvalidation
  · rw [runMain_trace_abort rand rpow cfg d t v h, if_pos h]
    exact trainWrites_preEffects cfg d t v
  · rw [runMain_trace rand rpow cfg d t v (by omega), if_neg h]
    rw [trainWrites, List.filterMap_append]
    rw [show (preEffects cfg d t v).filterMap trainOf = trainWrites (preEffects cfg d t v)
        from rfl, trainWrites_preEffects, List.nil_append]
    rfl

/-- The validation writes of any run do not depend on the environment oracle. -/
lemma validationWrites_runMain (rand : ℕ → ℚ) (rpow : ℚ → ℚ → ℚ) (cfg : Config)
    (d : Bool) (t v : ℕ → Bool) :
    validationWrites (runMain rand rpow cfg d t v).1
      = if cfg.nusers ≤ cfg.nvalidation then []
        else validationWrites (specTrace rand rpow cfg) := by
  by_cases h : cfg.nusers ≤ cfg.nvalidation
  · rw [runMain_trace_abort rand rpow cfg d t v h, if_pos h]
    exact validationWrites_preEffects cfg d t v
  · rw [runMain_trace rand rpow cfg d t v (by omega), if_neg h]
    rw [validationWrites, List.filterMap_append]
    rw [show (preEffects cfg d t v).filterMap valOf = validationWrites (preEffects cfg d t v)
        from rfl, validationWrites_preEffects, List.nil_append]
    rfl

/-- The record-write subtrace of any run does not depend on the environment
oracle. -/
lemma writes_runMain (rand : ℕ → ℚ) (rpow : ℚ → ℚ → ℚ) (cfg : Config)
    (d : Bool) (t v : ℕ → Bool) :
    writes (runMain rand rpow cfg d t v).1
      = if cfg.nusers ≤ cfg.nvalidation then []
        else writes (specTrace rand rpow cfg) := by
  by_cases h : cfg.nusers ≤ cfg.nvalidation
  · rw [runMain_trace_abort rand rpow cfg d t v h, if_pos h]
    exact writes_preEffects cfg d t v
  · rw [runMain_trace rand rpow cfg d t v (by omega), if_neg h]
    rw [writes, List.filterMap_append]
    rw [show (preEffects cfg d t v).filterMap (fun e => if isWrite e then some e else none)
        = writes (preEffects cfg d t v) from rfl, writes_preEffects, List.nil_append]
    rfl

/-- Index formula for an orbit segment. -/
lemma uidSeq_getD (n s len i : ℕ) (h : i < len) :
    (uidSeq n s len).getD i 0 = posUid n (s + i + 1) := by
  rw [uidSeq]
  have hlen : i < ((List.range len).map (fun j => posUid n (s + j + 1))).length := by
    rw [List.length_map, List.length_range]
    exact h
  rw [List.getD_eq_getElem _ 0 hlen, List.getElem_map]
  exact congrArg (fun j => posUid n (s + j + 1)) (List.getElem_range i _)

/-- Length of an orbit segment. -/
lemma uidSeq_length (n s len : ℕ) : (uidSeq n s len).length = len := by
  rw [uidSeq, List.length_map, List.length_range]

/-- Every movie-block effect survives the write filter. -/
lemma writes_specBlock (rand : ℕ → ℚ) (rpow : ℚ → ℚ → ℚ) (cfg : Config) (m base : ℕ) :
    writes (specBlock rand rpow cfg m base) = specBlock rand rpow cfg m base := by
  rw [specBlock, writes, List.filterMap_append, List.filterMap_map, List.filterMap_map]
  have h1 : ((fun e => if isWrite e then some e else none) ∘ fun i =>
      writeAt (userTable rand cfg) (movieTable rand cfg) cfg.nusers cfg.nfiles m false
        (posUid cfg.nusers (base + i + 1)))
      = fun i => some (writeAt (userTable rand cfg) (movieTable rand cfg) cfg.nusers
          cfg.nfiles m false (posUid cfg.nusers (base + i + 1))) := by
    funext i
    rfl
  have h2 : ((fun e => if isWrite e then some e else none) ∘ fun i =>
      writeAt (userTable rand cfg) (movieTable rand cfg) cfg.nusers cfg.nfiles m true
        (posUid cfg.nusers (base + sampledDegree rand rpow cfg m + i + 1)))
      = fun i => some (writeAt (userTable rand cfg) (movieTable rand cfg) cfg.nusers
          cfg.nfiles m true
          (posUid cfg.nusers (base + sampledDegree rand rpow cfg m + i + 1))) := by
    funext i
    rfl
  rw [h1, h2, filterMap_some_eq_map, filterMap_some_eq_map]

/-- Every generation-loop effect survives the write filter: the generation
trace consists of record writes only. -/
lemma writes_specFrom (rand : ℕ → ℚ) (rpow : ℚ → ℚ → ℚ) (cfg : Config) (rem : ℕ) :
    ∀ m, writes (specFrom rand rpow cfg rem m) = specFrom rand rpow cfg rem m := by
  induction rem with
  | zero => intro m; rfl
  | succ rem ih =>
    intro m
    rw [specFrom, writes, List.filterMap_append]
    rw [show (specBlock rand rpow cfg m (totalBefore rand rpow cfg m)).filterMap
          (fun e => if isWrite e then some e else none)
        = writes (specBlock rand rpow cfg m (totalBefore rand rpow cfg m)) from rfl]
    rw [show (specFrom rand rpow cfg rem (m + 1)).filterMap
          (fun e => if isWrite e then some e else none)
        = writes (specFrom rand rpow cfg rem (m + 1)) from rfl]
    rw [writes_specBlock, ih (m + 1)]

/-- The prologue is always part of the run trace. -/
lemma mem_preEffects_runMain (rand : ℕ → ℚ) (rpow : ℚ → ℚ → ℚ) (cfg : Config)
    (d : Bool) (t v : ℕ → Bool) (e : Effect) (he : e ∈ preEffects cfg d t v) :
    e ∈ (runMain rand rpow cfg d t v).1 := by
  by_cases h : cfg.nusers ≤ cfg.nvalidation
  · rw [runMain_trace_abort rand rpow cfg d t v h]
    exact he
  · rw [runMain_trace rand rpow cfg d t v (by omega)]
    exact List.mem_append_left _ he

/-- A failed training-file open of an in-range shard leaves a log entry in
the prologue. -/
lemma logError_mem_openEffects_train (t v : ℕ → Bool) (n i : ℕ) (hi : i < n)
    (ht : t i = false) : Effect.logError ∈ openEffects t v n := by
  induction n with
  | zero => omega
  | succ n ih =>
    rw [openEffects]
    rcases Nat.lt_succ_iff_lt_or_eq.1 hi with h | h
    · exact List.mem_append_left _ (ih h)
    · subst h
      refine List.mem_append_right _ (List.mem_append_left _ ?_)
      simp [ht]

/-- A failed validation-file open of an in-range shard leaves a log entry in
the prologue. -/
lemma logError_mem_openEffects_val (t v : ℕ → Bool) (n i : ℕ) (hi : i < n)
    (hv : v i = false) : Effect.logError ∈ openEffects t v n := by
  induction n with
  | zero => omega
  | succ n ih =>
    rw [openEffects]
    rcases Nat.lt_succ_iff_lt_or_eq.1 hi with h | h
    · exact List.mem_append_left _ (ih h)
    · subst h
      refine List.mem_append_right _ (List.mem_append_right _ ?_)
      simp [hv]

/-- The training write at overall emission position 1 (movie 0, first
iteration of its degree loop) belongs to every successful run with at least
one movie: the training degree is always at least 1. -/
lemma first_trainWrite_mem (rand : ℕ → ℚ) (rpow : ℚ → ℚ → ℚ) (cfg : Config)
    (d : Bool) (t v : ℕ → Bool) (h : cfg.nvalidation < cfg.nusers) (h0 : 0 < cfg.nmovies) :
    (posUid cfg.nusers 1 % cfg.nfiles,
      mkRecord (userTable rand cfg) (movieTable rand cfg) cfg.nusers 0 (posUid cfg.nusers 1))
      ∈ trainWrites (runMain rand rpow cfg d t v).1 := by
  rw [trainWrites_runMain, if_neg (by omega)]
  obtain ⟨k, hk⟩ : ∃ k, cfg.nmovies = k + 1 := ⟨cfg.nmovies - 1, by omega⟩
  rw [specTrace, hk, specFrom]
  rw [trainWrites, List.filterMap_append]
  refine List.mem_append_left _ ?_
  refine List.mem_filterMap.2 ⟨writeAt (userTable rand cfg) (movieTable rand cfg) cfg.nusers
    cfg.nfiles 0 false (posUid cfg.nusers (totalBefore rand rpow cfg 0 + 0 + 1)), ?_, ?_⟩
  · rw [specBlock]
    refine List.mem_append_left _ (List.mem_map.2 ⟨0, ?_, rfl⟩)
    exact List.mem_range.2 (Nat.succ_pos _)
  · rw [trainOf_writeAt]
    rfl

/-- C1, counterexample: with `nusers = 1 ≤ 2 = nvalidation` the run does
abort at the assertion (completion flag false), but the trace up to the abort
already contains the creation of the output directory and the creation (open)
of training shard file 0 — refuting that the run aborts before any output
file is created. -/
theorem C1_counterexample :
    (runMain wRand wRpow xCfg true wOk wOk).2 = false ∧
    Effect.openTrain 0 ∈ (runMain wRand wRpow xCfg true wOk wOk).1 ∧
    Effect.createDir ∈ (runMain wRand wRpow xCfg true wOk wOk).1 := by
  refine ⟨rfl, ?_, ?_⟩ <;> decide

/-- C1, amended: for every configuration with `nusers ≤ nvalidation` the run
fails the degree-population assertion (`ASSERT_GT(nusers, nvalidation)`, the
ConfigurationError) and aborts before any record is written to any output
file — though after the output directory and the shard files have already
been created/opened. -/
theorem C1_theorem (rand : ℕ → ℚ) (rpow : ℚ → ℚ → ℚ) (cfg : Config)
    (d : Bool) (t v : ℕ → Bool) (h : cfg.nusers ≤ cfg.nvalidation) :
    (runMain rand rpow cfg d t v).2 = false ∧
    writes (runMain rand rpow cfg d t v).1 = [] := by
  rw [runMain_trace_abort rand rpow cfg d t v h]
  exact ⟨rfl, writes_preEffects cfg d t v⟩

/-- C1, witness: the amended statement at the concrete invalid
configuration. -/
theorem C1_witness :
    xCfg.nusers ≤ xCfg.nvalidation ∧
    ((runMain wRand wRpow xCfg true wOk wOk).2 = false ∧
     writes (runMain wRand wRpow xCfg true wOk wOk).1 = []) :=
  ⟨by decide, C1_theorem wRand wRpow xCfg true wOk wOk (by decide)⟩

/-- C2: every emitted record (training or validation) has rating exactly the
dot product of the stored user factor (row `user_id`) and the stored movie
factor (row `item_id - nusers`), with no noise term; and the `noise`
configuration parameter has no effect whatsoever on the run. -/
theorem C2_theorem (rand : ℕ → ℚ) (rpow : ℚ → ℚ → ℚ) (cfg : Config)
    (d : Bool) (t v : ℕ → Bool) (f : ℕ) (r : Record)
    (hm : (f, r) ∈ trainWrites (runMain rand rpow cfg d t v).1 ∨
          (f, r) ∈ validationWrites (runMain rand rpow cfg d t v).1) :
    r.rating = dot ((userTable rand cfg).getD r.user_id [])
        ((movieTable rand cfg).getD (r.item_id - cfg.nusers) []) ∧
    ∀ q : ℚ, runMain rand rpow { cfg with noise := q } d t v
      = runMain rand rpow cfg d t v := by
  constructor
  · rcases hm with hm | hm
    · obtain ⟨m, p, hm1, hm2, hf, hr⟩ := trainWrites_runMain_mem rand rpow cfg d t v f r hm
      subst hr
      simp [mkRecord, Nat.add_sub_cancel]
    · obtain ⟨m, p, hm1, hm2, hf, hr⟩ :=
        validationWrites_runMain_mem rand rpow cfg d t v f r hm
      subst hr
      simp [mkRecord, Nat.add_sub_cancel]
  · intro q
    cases cfg
    rfl

/-- C2, witness: the first training record of the concrete small run, whose
rating is the dot product of its user factor and movie factor 0; and noise
independence at that configuration. -/
theorem C2_witness :
    (mkRecord (userTable wRand wCfg) (movieTable wRand wCfg) wCfg.nusers 0
        (posUid wCfg.nusers 1)).rating
      = dot ((userTable wRand wCfg).getD
            (mkRecord (userTable wRand wCfg) (movieTable wRand wCfg) wCfg.nusers 0
              (posUid wCfg.nusers 1)).user_id [])
          ((movieTable wRand wCfg).getD
            ((mkRecord (userTable wRand wCfg) (movieTable wRand wCfg) wCfg.nusers 0
              (posUid wCfg.nusers 1)).item_id - wCfg.nusers) []) ∧
    ∀ q : ℚ, runMain wRand wRpow { wCfg with noise := q } true wOk wOk
      = runMain wRand wRpow wCfg true wOk wOk :=
  C2_theorem wRand wRpow wCfg true wOk wOk
    (posUid wCfg.nusers 1 % wCfg.nfiles)
    (mkRecord (userTable wRand wCfg) (movieTable wRand wCfg) wCfg.nusers 0
      (posUid wCfg.nusers 1))
    (Or.inl (first_trainWrite_mem wRand wRpow wCfg true wOk wOk (by decide) (by decide)))

/-- C3: the emitted user ids of the whole run (training and validation
records together, in emission order) form one unbroken cursor chain: the
first emitted id is one advance from the initial cursor 0, and every next
emitted id — across item boundaries as well as inside the training and
validation loops — is (previous + 2654435761) % nusers. -/
theorem C3_theorem (rand : ℕ → ℚ) (rpow : ℚ → ℚ → ℚ) (cfg : Config)
    (d : Bool) (t v : ℕ → Bool) :
    (0 < (writtenUids (runMain rand rpow cfg d t v).1).length →
      (writtenUids (runMain rand rpow cfg d t v).1).getD 0 0
        = (0 + hashIncrement) % cfg.nusers) ∧
    (∀ i, i + 1 < (writtenUids (runMain rand rpow cfg d t v).1).length →
      (writtenUids (runMain rand rpow cfg d t v).1).getD (i + 1) 0
        = ((writtenUids (runMain rand rpow cfg d t v).1).getD i 0 + hashIncrement)
            % cfg.nusers) := by
  by_cases h : cfg.nusers ≤ cfg.nvalidation
  · rw [writtenUids_runMain, if_pos h]
    exact ⟨fun h0 => absurd h0 (by simp), fun i hi => absurd hi (by simp)⟩
  · rw [writtenUids_runMain, if_neg h]
    constructor
    · intro h0
      rw [uidSeq_length] at h0
      rw [uidSeq_getD _ _ _ _ h0, posUid]
      congr 1
    · intro i hi
      rw [uidSeq_length] at hi
      rw [uidSeq_getD _ _ _ _ hi, uidSeq_getD _ _ _ _ (by omega)]
      rw [show (posUid cfg.nusers (0 + i + 1) + hashIncrement) % cfg.nusers
          = advance cfg.nusers (posUid cfg.nusers (0 + i + 1)) from rfl]
      rw [advance_posUid]
      exact congrArg (posUid cfg.nusers) (by omega)

/-- C3, witness: in the concrete small run, the second emitted user id is one
cursor advance from the first. -/
theorem C3_witness :
    (writtenUids (runMain wRand wRpow wCfg true wOk wOk).1).getD 1 0
      = ((writtenUids (runMain wRand wRpow wCfg true wOk wOk).1).getD 0 0 + hashIncrement)
          % wCfg.nusers := by
  refine (C3_theorem wRand wRpow wCfg true wOk wOk).2 0 ?_
  have hlen : (writtenUids (runMain wRand wRpow wCfg true wOk wOk).1).length
      = sampledDegree wRand wRpow wCfg 0 + 1 := by
    rw [writtenUids_runMain, if_neg (by decide), uidSeq_length]
    rfl
  have hdeg : 1 ≤ sampledDegree wRand wRpow wCfg 0 := Nat.succ_le_succ (Nat.zero_le _)
  omega

/-- C4: every emitted record — training or validation — has
`item_id = item_index + nusers` for the item index it was emitted for (an
index below nmovies), and `user_id < nusers`; user and item identifiers thus
occupy disjoint ranges. -/
theorem C4_theorem (rand : ℕ → ℚ) (rpow : ℚ → ℚ → ℚ) (cfg : Config)
    (d : Bool) (t v : ℕ → Bool) (f : ℕ) (r : Record)
    (hm : (f, r) ∈ trainWrites (runMain rand rpow cfg d t v).1 ∨
          (f, r) ∈ validationWrites (runMain rand rpow cfg d t v).1) :
    (∃ m, m < cfg.nmovies ∧ r.item_id = m + cfg.nusers) ∧ r.user_id < cfg.nusers := by
  rcases hm with hm | hm
  · obtain ⟨m, p, h1, h2, hf, hr⟩ := trainWrites_runMain_mem rand rpow cfg d t v f r hm
    subst hr
    exact ⟨⟨m, h1, rfl⟩, Nat.mod_lt _ (by omega)⟩
  · obtain ⟨m, p, h1, h2, hf, hr⟩ := validationWrites_runMain_mem rand rpow cfg d t v f r hm
    subst hr
    exact ⟨⟨m, h1, rfl⟩, Nat.mod_lt _ (by omega)⟩

/-- C4, witness: the id ranges at the first training record of the concrete
small run. -/
theorem C4_witness :
    (∃ m, m < wCfg.nmovies ∧
      (mkRecord (userTable wRand wCfg) (movieTable wRand wCfg) wCfg.nusers 0
        (posUid wCfg.nusers 1)).item_id = m + wCfg.nusers) ∧
    (mkRecord (userTable wRand wCfg) (movieTable wRand wCfg) wCfg.nusers 0
      (posUid wCfg.nusers 1)).user_id < wCfg.nusers :=
  C4_theorem wRand wRpow wCfg true wOk wOk
    (posUid wCfg.nusers 1 % wCfg.nfiles)
    (mkRecord (userTable wRand wCfg) (movieTable wRand wCfg) wCfg.nusers 0
      (posUid wCfg.nusers 1))
    (Or.inl (first_trainWrite_mem wRand wRpow wCfg true wOk wOk (by decide) (by decide)))

/-- C5: every training (resp. validation) record is written to training
(resp. validation) shard `user_id % nfiles`; and the record-write subtrace of
a run that passes the configuration check is exactly the closed-form
generation trace, in which each item's block consists of the training-loop
writes (to training files) followed by the validation-loop writes (to
validation files) — the train/validation classification of a record agrees
with the phase that produced it. -/
theorem C5_theorem (rand : ℕ → ℚ) (rpow : ℚ → ℚ → ℚ) (cfg : Config)
    (d : Bool) (t v : ℕ → Bool) :
    (∀ f r, (f, r) ∈ trainWrites (runMain rand rpow cfg d t v).1 →
      f = r.user_id % cfg.nfiles) ∧
    (∀ f r, (f, r) ∈ validationWrites (runMain rand rpow cfg d t v).1 →
      f = r.user_id % cfg.nfiles) ∧
    (cfg.nvalidation < cfg.nusers →
      writes (runMain rand rpow cfg d t v).1 = specTrace rand rpow cfg) := by
  refine ⟨fun f r hm => ?_, fun f r hm => ?_, fun h => ?_⟩
  · obtain ⟨m, p, h1, h2, hf, hr⟩ := trainWrites_runMain_mem rand rpow cfg d t v f r hm
    subst hr
    exact hf
  · obtain ⟨m, p, h1, h2, hf, hr⟩ := validationWrites_runMain_mem rand rpow cfg d t v f r hm
    subst hr
    exact hf
  · rw [writes_runMain, if_neg (by omega), specTrace, writes_specFrom]

/-- C5, witness: shard routing of the first training record and the phase
decomposition of the concrete small run. -/
theorem C5_witness :
    posUid wCfg.nusers 1 % wCfg.nfiles
      = (mkRecord (userTable wRand wCfg) (movieTable wRand wCfg) wCfg.nusers 0
          (posUid wCfg.nusers 1)).user_id % wCfg.nfiles ∧
    writes (runMain wRand wRpow wCfg true wOk wOk).1 = specTrace wRand wRpow wCfg :=
  ⟨(C5_theorem wRand wRpow wCfg true wOk wOk).1 _ _
      (first_trainWrite_mem wRand wRpow wCfg true wOk wOk (by decide) (by decide)),
   (C5_theorem wRand wRpow wCfg true wOk wOk).2.2 (by decide)⟩

/-- C6: a run with a valid configuration iterates over exactly nmovies items
(the per-item degree draws at stream positions cnt0 .. cnt0 + nmovies - 1):
its total training-record count is the sum of the nmovies sampled degrees and
its total validation-record count is nmovies * nvalidation — in particular
nvalidation = 0 gives zero validation records while the training count
formula is unchanged. -/
theorem C6_theorem (rand : ℕ → ℚ) (rpow : ℚ → ℚ → ℚ) (cfg : Config)
    (d : Bool) (t v : ℕ → Bool) (h : cfg.nvalidation < cfg.nusers) :
    (trainWrites (runMain rand rpow cfg d t v).1).length
      = ((List.range cfg.nmovies).map (sampledDegree rand rpow cfg)).sum ∧
    (validationWrites (runMain rand rpow cfg d t v).1).length
      = cfg.nmovies * cfg.nvalidation := by
  constructor
  · rw [trainWrites_runMain, if_neg (by omega), specTrace,
      trainWrites_specFrom_length rand rpow cfg cfg.nmovies 0]
    refine congrArg List.sum (List.map_congr_left (fun j _ => ?_))
    exact congrArg (sampledDegree rand rpow cfg) (by omega)
  · rw [validationWrites_runMain, if_neg (by omega), specTrace,
      validationWrites_specFrom_length rand rpow cfg cfg.nmovies 0]

/-- C6, witness: the record counts of the concrete small run. -/
theorem C6_witness :
    wCfg.nvalidation < wCfg.nusers ∧
    ((trainWrites (runMain wRand wRpow wCfg true wOk wOk).1).length
      = ((List.range wCfg.nmovies).map (sampledDegree wRand wRpow wCfg)).sum ∧
     (validationWrites (runMain wRand wRpow wCfg true wOk wOk).1).length
      = wCfg.nmovies * wCfg.nvalidation) :=
  ⟨by decide, C6_theorem wRand wRpow wCfg true wOk wOk (by decide)⟩

/-- C7: under a valid configuration the degree sampler — the located CDF
index plus one — always returns a degree k with 1 ≤ k ≤ nusers - nvalidation,
the CDF being built over exactly nusers - nvalidation ranks. -/
theorem C7_theorem (rand : ℕ → ℚ) (rpow : ℚ → ℚ → ℚ) (cfg : Config)
    (h : cfg.nvalidation < cfg.nusers) (m : ℕ) :
    1 ≤ sampledDegree rand rpow cfg m ∧
    sampledDegree rand rpow cfg m ≤ cfg.nusers - cfg.nvalidation ∧
    (cdfOf rpow cfg).length = cfg.nusers - cfg.nvalidation := by
  have hlen : (cdfOf rpow cfg).length = cfg.nusers - cfg.nvalidation := by
    rw [cdfOf, pdf2cdf_length]
    simp [probOf]
  have hne : cdfOf rpow cfg ≠ [] := by
    intro hnil
    rw [hnil] at hlen
    simp at hlen
    omega
  have hlt := multinomial_cdf_lt_length (cdfOf rpow cfg) (rand (cnt0 cfg + m)) hne
  rw [hlen] at hlt
  rw [sampledDegree]
  exact ⟨by omega, by omega, hlen⟩

/-- C7, witness: the degree bounds at the concrete small configuration
(population 10 - 1 = 9). -/
theorem C7_witness :
    wCfg.nvalidation < wCfg.nusers ∧
    (1 ≤ sampledDegree wRand wRpow wCfg 0 ∧
     sampledDegree wRand wRpow wCfg 0 ≤ wCfg.nusers - wCfg.nvalidation ∧
     (cdfOf wRpow wCfg).length = wCfg.nusers - wCfg.nvalidation) :=
  ⟨by decide, C7_theorem wRand wRpow wCfg (by decide) 0⟩

/-- C8: determinism. The whole computation is a function of the seeded draw
stream and the configuration alone: two runs with the same stream (seed
31413), the same configuration and the same call order produce identical
record-write subtraces, identical per-shard training and validation file
contents, and the same completion flag, whatever the environment oracles of
the two runs report. -/
theorem C8_theorem (rand : ℕ → ℚ) (rpow : ℚ → ℚ → ℚ) (cfg : Config)
    (d1 d2 : Bool) (t1 v1 t2 v2 : ℕ → Bool) :
    (∀ j, trainShard j (runMain rand rpow cfg d1 t1 v1).1
        = trainShard j (runMain rand rpow cfg d2 t2 v2).1) ∧
    (∀ j, validationShard j (runMain rand rpow cfg d1 t1 v1).1
        = validationShard j (runMain rand rpow cfg d2 t2 v2).1) ∧
    writes (runMain rand rpow cfg d1 t1 v1).1 = writes (runMain rand rpow cfg d2 t2 v2).1 ∧
    (runMain rand rpow cfg d1 t1 v1).2 = (runMain rand rpow cfg d2 t2 v2).2 := by
  refine ⟨fun j => ?_, fun j => ?_, ?_, ?_⟩
  · rw [trainShard, trainShard, trainWrites_runMain, trainWrites_runMain]
  · rw [validationShard, validationShard, validationWrites_runMain, validationWrites_runMain]
  · rw [writes_runMain, writes_runMain]
  · rw [runMain_snd, runMain_snd]

/-- C9: an environment failure of directory creation or of a shard-file open
is only logged: the run's completion flag and its record writes are the same
as under an all-successful environment (generation proceeds unhindered to the
generation loop), and each such failure leaves a log entry in the trace. -/
theorem C9_theorem (rand : ℕ → ℚ) (rpow : ℚ → ℚ → ℚ) (cfg : Config)
    (d : Bool) (t v : ℕ → Bool) :
    (runMain rand rpow cfg d t v).2
      = (runMain rand rpow cfg true (fun _ => true) (fun _ => true)).2 ∧
    writes (runMain rand rpow cfg d t v).1
      = writes (runMain rand rpow cfg true (fun _ => true) (fun _ => true)).1 ∧
    (d = false → Effect.logError ∈ (runMain rand rpow cfg d t v).1) ∧
    (∀ i, i < cfg.nfiles → t i = false →
      Effect.logError ∈ (runMain rand rpow cfg d t v).1) ∧
    (∀ i, i < cfg.nfiles → v i = false →
      Effect.logError ∈ (runMain rand rpow cfg d t v).1) := by
  refine ⟨?_, ?_, fun hd => ?_, fun i hi hti => ?_, fun i hi hvi => ?_⟩
  · rw [runMain_snd, runMain_snd]
  · rw [writes_runMain, writes_runMain]
  · refine mem_preEffects_runMain rand rpow cfg d t v _ ?_
    rw [preEffects, hd]
    simp
  · refine mem_preEffects_runMain rand rpow cfg d t v _ ?_
    rw [preEffects]
    exact List.mem_append_right _ (logError_mem_openEffects_train t v cfg.nfiles i hi hti)
  · refine mem_preEffects_runMain rand rpow cfg d t v _ ?_
    rw [preEffects]
    exact List.mem_append_right _ (logError_mem_openEffects_val t v cfg.nfiles i hi hvi)

/-- C9, witness: a run under an all-failing environment oracle logs errors
for the directory and both file families yet writes the same records as the
all-successful run. -/
theorem C9_witness :
    writes (runMain wRand wRpow wCfg false (fun _ => false) (fun _ => false)).1
      = writes (runMain wRand wRpow wCfg true (fun _ => true) (fun _ => true)).1 ∧
    Effect.logError ∈ (runMain wRand wRpow wCfg false (fun _ => false) (fun _ => false)).1 :=
  ⟨(C9_theorem wRand wRpow wCfg false (fun _ => false) (fun _ => false)).2.1,
   (C9_theorem wRand wRpow wCfg false (fun _ => false) (fun _ => false)).2.2.1 rfl⟩

/-- C10: because the cursor starts at 0 and each advance adds the same
constant modulo nusers, the n-th emitted user id of the run (training and
validation together, 1-indexed) is (n * 2654435761) % nusers independently of
all drawn values; hence every emitted user id is divisible by
gcd(2654435761, nusers), and any user id not divisible by that gcd never
receives a rating. -/
theorem C10_theorem (rand : ℕ → ℚ) (rpow : ℚ → ℚ → ℚ) (cfg : Config)
    (d : Bool) (t v : ℕ → Bool) :
    (∀ i, i < (writtenUids (runMain rand rpow cfg d t v).1).length →
      (writtenUids (runMain rand rpow cfg d t v).1).getD i 0
        = ((i + 1) * 2654435761) % cfg.nusers) ∧
    (∀ u, u ∈ writtenUids (runMain rand rpow cfg d t v).1 →
      Nat.gcd 2654435761 cfg.nusers ∣ u) ∧
    (∀ u, ¬ Nat.gcd 2654435761 cfg.nusers ∣ u →
      u ∉ writtenUids (runMain rand rpow cfg d t v).1) := by
  have hdvd : ∀ p : ℕ, Nat.gcd 2654435761 cfg.nusers ∣ posUid cfg.nusers p := by
    intro p
    rw [posUid, hashIncrement]
    rw [Nat.dvd_mod_iff (Nat.gcd_dvd_right 2654435761 cfg.nusers)]
    exact Dvd.dvd.mul_left (Nat.gcd_dvd_left 2654435761 cfg.nusers) p
  have hmem : ∀ u, u ∈ writtenUids (runMain rand rpow cfg d t v).1 →
      Nat.gcd 2654435761 cfg.nusers ∣ u := by
    intro u hu
    by_cases h : cfg.nusers ≤ cfg.nvalidation
    · rw [writtenUids_runMain, if_pos h] at hu
      simp at hu
    · rw [writtenUids_runMain, if_neg h] at hu
      obtain ⟨i, _, rfl⟩ := List.mem_map.1 hu
      exact hdvd _
  refine ⟨?_, hmem, fun u hnd hu => hnd (hmem u hu)⟩
  intro i hi
  by_cases h : cfg.nusers ≤ cfg.nvalidation
  · rw [writtenUids_runMain, if_pos h] at hi
    simp at hi
  · rw [writtenUids_runMain, if_neg h] at hi ⊢
    rw [uidSeq_length] at hi
    rw [uidSeq_getD _ _ _ _ hi, posUid, hashIncrement]
    exact congrArg (fun a => a * 2654435761 % cfg.nusers) (by omega)

/-- C10, witness: the first emitted user id of the concrete small run is
(1 * 2654435761) % 10, and it is divisible by gcd(2654435761, 10). -/
theorem C10_witness :
    (writtenUids (runMain wRand wRpow wCfg true wOk wOk).1).getD 0 0
      = ((0 + 1) * 2654435761) % wCfg.nusers := by
  refine (C10_theorem wRand wRpow wCfg true wOk wOk).1 0 ?_
  have hlen : (writtenUids (runMain wRand wRpow wCfg true wOk wOk).1).length
      = sampledDegree wRand wRpow wCfg 0 + 1 := by
    rw [writtenUids_runMain, if_neg (by decide), uidSeq_length]
    rfl
  omega

end MakeSyntheticAlsData
